import Mathlib

/-!
Verification of the in-memory search index of `backend/search.py`
(class `SearchIndex`: `tokenize`, `add_paper`, `rebuild`, `search` and its
snippet helpers), against the design specification of the repository.

Modelling conventions:
* Python `dict` / `collections.defaultdict` values are insertion-ordered
  association lists (`List (String × _)`), matching the insertion-order
  semantics of CPython dictionaries.
* The posting tuples `(paper.id, field, weight)` and
  `(paper.id, 'highlight', 6, hl.page, hl.text)` become a `Posting`
  structure whose `payload` option holds the two extra positional slots.
* Scores are `Nat`: the Python code accumulates integer literal weights in a
  `defaultdict(float)`, and sums of small integers are exact in floats.
* `sorted(..., key=lambda x: x[1], reverse=True)` (a stable sort) is
  modelled by the stable insertion sort `sortDesc`.
* Definitions whose doc comment says "spec-level" are written from the
  words of the specification, for refinement comparisons; everything else
  is translated from the Python source.
-/

namespace Scholarita

/-- Characters matched by the regex class `\w` on ASCII input: letters,
digits and the underscore (the source tokenizes with
`re.findall(r'\w+', text.lower())`). -/
def isWordChar (c : Char) : Bool := c.isAlphanum || c == '_'

/-- Accumulator pass of `re.findall(r'\w+', s)`: `acc` is the reversed run
of word characters read so far. -/
def wordRunsAux : List Char → List Char → List (List Char)
  | [], acc => if acc.isEmpty then [] else [acc.reverse]
  | c :: cs, acc =>
    if isWordChar c then wordRunsAux cs (c :: acc)
    else if acc.isEmpty then wordRunsAux cs acc else acc.reverse :: wordRunsAux cs []

/-- `re.findall(r'\w+', s)`: the maximal runs of word characters of `s`,
in order of occurrence. -/
def wordRuns (l : List Char) : List (List Char) := wordRunsAux l []

/-- The stopword set of `search.py` (a Python `set`; only membership is
ever used, so a list is an adequate model). -/
def STOPWORDS : List String :=
  ["a", "an", "and", "are", "as", "at", "be", "by", "for", "from",
   "has", "he", "in", "is", "it", "its", "of", "on", "that", "the",
   "to", "was", "will", "with", "this", "but", "they", "have", "had",
   "what", "when", "where", "who", "which", "why", "how"]

/-- Python's `str.lower()` on the ASCII texts this code handles,
character by character (`String.toLower` of the core library computes the
same string but through a position-based recursion that does not reduce
definitionally). -/
def lowerStr (s : String) : String := String.mk (s.data.map Char.toLower)

/-- `SearchIndex.tokenize`: guard `if not text` (the empty string is falsy),
then lowercase, take the `\w+` runs, and keep the words that are not
stopwords and have more than one character. -/
def tokenize (text : String) : List String :=
  if text = "" then []
  else ((wordRuns (lowerStr text).data).map String.mk).filter
    (fun w => !STOPWORDS.contains w && w.length > 1)

/-- `tokenize` on an optional input: `None` is falsy in the `if not text`
guard, so an absent text tokenizes to the empty list. -/
def tokenizeOpt (text : Option String) : List String :=
  match text with
  | none => []
  | some s => tokenize s

/-- Spec-level splitter, from the words of the specification: "split on
runs of non-alphanumeric characters (word-boundary segmentation,
consistent with a `\w+` class)". Formulated with `takeWhile`/`dropWhile`,
independently of the accumulator formulation `wordRuns`. -/
def specRuns : List Char → List (List Char)
  | [] => []
  | c :: cs =>
    if isWordChar c then
      (c :: cs.takeWhile isWordChar) :: specRuns (cs.dropWhile isWordChar)
    else specRuns cs
termination_by l => l.length
decreasing_by
  · simp only [List.length_cons]
    have h : ∀ (l : List Char), (l.dropWhile isWordChar).length ≤ l.length := by
      intro l
      induction l with
      | nil => simp
      | cons d ds ih =>
        rw [List.dropWhile_cons]
        by_cases hd : isWordChar d = true
        · simp only [hd, if_true, List.length_cons]
          omega
        · simp [hd]
    exact Nat.lt_succ_of_le (h cs)
  · simp

/-- Spec-level tokenizer, from the words of the specification: "lowercase;
split on runs of non-alphanumeric characters; drop tokens present in a
fixed stopword set; drop tokens of length < 2". -/
def specTokenize (text : String) : List String :=
  ((specRuns (lowerStr text).data).map String.mk).filter
    (fun w => !STOPWORDS.contains w && 2 ≤ w.length)

/-- `models.Author`, restricted to the field read by the search module
(`affiliation` is never read there). -/
structure Author where
  name : String
deriving DecidableEq

/-- `models.Highlight`, restricted to the fields read by the search module
(`id`, `color`, `anchor` and `created_at` are never read there). -/
structure Highlight where
  page : Int
  text : String
  comment : Option String
deriving DecidableEq

/-- `models.Paper`, restricted to the fields read by the search module
(`doi`, `journal`, `year`, `url`, `date_added` and `date_modified` are
never read there). -/
structure Paper where
  id : String
  title : String
  authors : List Author
  abstract : Option String
  tags : List String
  highlights : List Highlight
deriving DecidableEq

/-- One entry of a postings list: the tuples `(paper.id, field, weight)`
and `(paper.id, 'highlight', 6, hl.page, hl.text)` of the source. The two
extra positional slots of the five-tuples are the `payload` option, so
`payload.isSome` models `len(entry) > 3`. -/
structure Posting where
  paperId : String
  field : String
  weight : Nat
  payload : Option (Int × String)
deriving DecidableEq

/-- `d.get(k)` on a Python dict modelled as an insertion-ordered
association list. -/
def alGet {α : Type} : List (String × α) → String → Option α
  | [], _ => none
  | (k0, v) :: rest, k => if k = k0 then some v else alGet rest k

/-- `d.get(k, d0)`. -/
def alGetD {α : Type} (l : List (String × α)) (k : String) (d0 : α) : α :=
  (alGet l k).getD d0

/-- `d[k] = v` on a Python dict: replace the value in place when the key
is present, append a new entry otherwise. -/
def alSet {α : Type} : List (String × α) → String → α → List (String × α)
  | [], k, v => [(k, v)]
  | (k0, v0) :: rest, k, v =>
    if k = k0 then (k0, v) :: rest else (k0, v0) :: alSet rest k v

/-- `d[k].append(v)` on a `defaultdict(list)`: append to the entry in
place when the key is present, create the key at the end otherwise. -/
def ddAppend {α : Type} : List (String × List α) → String → α → List (String × List α)
  | [], k, v => [(k, [v])]
  | (k0, vs) :: rest, k, v =>
    if k = k0 then (k0, vs ++ [v]) :: rest else (k0, vs) :: ddAppend rest k v

/-- `d[k] += w` on a `defaultdict(float)` (over `Nat` here: the code only
ever adds the integer literal weights, which float addition represents
exactly). -/
def bump : List (String × Nat) → String → Nat → List (String × Nat)
  | [], k, w => [(k, w)]
  | (k0, v0) :: rest, k, w =>
    if k = k0 then (k0, v0 + w) :: rest else (k0, v0) :: bump rest k w

/-- The mutable state of a `SearchIndex` instance: the `papers` cache
(`Dict[str, Paper]`) and the inverted `index`
(`defaultdict(list) : term → postings`). -/
structure SearchIndex where
  papers : List (String × Paper)
  index : List (String × List Posting)
deriving DecidableEq

/-- The state built by `SearchIndex.__init__` (and restored by the two
`clear()` calls at the start of `rebuild`). -/
def emptyIndex : SearchIndex := ⟨[], []⟩

/-- `SearchIndex.add_paper`: cache the paper under its id, then append one
posting per token occurrence of each field, in source order (title 10,
tags 8, highlights 6 with the `(hl.page, hl.text)` payload, abstract 4,
authors 7). The abstract loop sits under the truthiness guard
`if paper.abstract:` (both `None` and the empty string are falsy). -/
def add_paper (idx : SearchIndex) (p : Paper) : SearchIndex :=
  let papers := alSet idx.papers p.id p
  let ix1 := (tokenize p.title).foldl
    (fun ix tok => ddAppend ix tok ⟨p.id, "title", 10, none⟩) idx.index
  let ix2 := p.tags.foldl
    (fun ix tag => (tokenize tag).foldl
      (fun ix tok => ddAppend ix tok ⟨p.id, "tag", 8, none⟩) ix) ix1
  let ix3 := p.highlights.foldl
    (fun ix hl => (tokenize (hl.text ++ " " ++ hl.comment.getD "")).foldl
      (fun ix tok => ddAppend ix tok ⟨p.id, "highlight", 6, some (hl.page, hl.text)⟩) ix) ix2
  let ix4 := match p.abstract with
    | none => ix3
    | some a =>
      if a = "" then ix3
      else (tokenize a).foldl
        (fun ix tok => ddAppend ix tok ⟨p.id, "abstract", 4, none⟩) ix3
  let ix5 := p.authors.foldl
    (fun ix a => (tokenize a.name).foldl
      (fun ix tok => ddAppend ix tok ⟨p.id, "author", 7, none⟩) ix) ix4
  ⟨papers, ix5⟩

/-- Spec-level list of the `(term, posting)` pairs that one `add(document)`
appends, from the words of the specification: one posting per token
occurrence of each field, weight 10 per title token, 8 per token of each
tag tokenized independently, 6 per token of each highlight's
text-plus-space-plus-comment-or-empty, 4 per abstract token, 7 per token of
each author's name, and a `(page, full highlight text)` payload only on
highlight postings. -/
def addedPostings (p : Paper) : List (String × Posting) :=
  (tokenize p.title).map (fun t => (t, ⟨p.id, "title", 10, none⟩))
  ++ p.tags.flatMap (fun tag =>
       (tokenize tag).map (fun t => (t, ⟨p.id, "tag", 8, none⟩)))
  ++ p.highlights.flatMap (fun hl =>
       (tokenize (hl.text ++ " " ++ hl.comment.getD "")).map
         (fun t => (t, ⟨p.id, "highlight", 6, some (hl.page, hl.text)⟩)))
  ++ (tokenizeOpt p.abstract).map (fun t => (t, ⟨p.id, "abstract", 4, none⟩))
  ++ p.authors.flatMap (fun a =>
       (tokenize a.name).map (fun t => (t, ⟨p.id, "author", 7, none⟩)))

/-- The boundary `rebuild` consumes from the storage collaborator:
`listing` is the sequence of ids of `list_papers()` in listing order (only
the `id` field of the metadata is read by `rebuild`), and `load` is
`load_paper`, returning `None` on a failed load. -/
structure Store where
  listing : List String
  load : String → Option Paper

/-- `SearchIndex.rebuild`: clear both structures (start from `emptyIndex`,
so the result does not depend on the previous state), then walk
`list_papers()` and `add_paper` every id whose `load_paper` succeeds. -/
def rebuild (store : Store) : SearchIndex :=
  store.listing.foldl
    (fun ix pid =>
      match store.load pid with
      | some p => add_paper ix p
      | none => ix)
    emptyIndex

/-- Spec-level replay, from the words of the specification: start from an
empty index and replay `add(document)` for exactly the documents the
list-then-load two-step successfully returns, in listing order. -/
def replayIndex (store : Store) : SearchIndex :=
  (store.listing.filterMap store.load).foldl add_paper emptyIndex

/-- `models.SearchMatch`: field, snippet and the optional page (set only
for highlight matches). -/
structure SearchMatch where
  field : String
  snippet : String
  page : Option Int
deriving DecidableEq

/-- `models.SearchResult`. Its `score` is a float in the source; the code
only ever stores sums of the integer weights in it, which `Nat` models
exactly. -/
structure SearchResult where
  paper_id : String
  title : String
  score : Nat
  «matches» : List SearchMatch
deriving DecidableEq

/-- One `match_info` record of `search`: the dict
`{'field': ..., 'token': ...}`, extended with `page`/`text` exactly when
the posting is a highlight five-tuple; the two optional keys are the
`payload` option. -/
structure MatchInfo where
  field : String
  token : String
  payload : Option (Int × String)
deriving DecidableEq

/-- The body of the posting loop of `search`: add the posting's weight to
the document's running score and record a `match_info` for it. -/
def collectEntry (st : List (String × Nat) × List (String × List MatchInfo))
    (tok : String) (e : Posting) :
    List (String × Nat) × List (String × List MatchInfo) :=
  (bump st.1 e.paperId e.weight,
   ddAppend st.2 e.paperId
     ⟨e.field, tok, if e.field = "highlight" then e.payload else none⟩)

/-- The score/match accumulation loops of `search`: for each query token,
walk `self.index.get(token, [])` and process every posting. -/
def collect (ix : List (String × List Posting)) (tokens : List String) :
    List (String × Nat) × List (String × List MatchInfo) :=
  tokens.foldl
    (fun st tok => (alGetD ix tok []).foldl (fun st e => collectEntry st tok e) st)
    ([], [])

/-- Insert one scored document into a descending list: it goes before the
first entry of smaller or equal score it can precede without passing an
earlier entry of greater or equal score, i.e. before the first entry of
strictly smaller score. -/
def insertDesc (x : String × Nat) : List (String × Nat) → List (String × Nat)
  | [] => [x]
  | y :: ys => if y.2 ≤ x.2 then x :: y :: ys else y :: insertDesc x ys

/-- `sorted(scores.items(), key=lambda x: x[1], reverse=True)`: a stable
sort by score descending (Python's sort is stable, and `reverse=True`
keeps equal elements in their original order). -/
def sortDesc : List (String × Nat) → List (String × Nat)
  | [] => []
  | x :: xs => insertDesc x (sortDesc xs)

/-- Python's substring test `needle in hay`. -/
def infixOf (needle hay : List Char) : Bool :=
  match hay with
  | [] => needle.isEmpty
  | _ :: t => needle.isPrefixOf hay || infixOf needle t

/-- Python's `hay.find(needle)`: index of the first occurrence, `None`
(for `-1`) when absent. -/
def findSub : List Char → List Char → Option Nat
  | [], needle => if needle.isEmpty then some 0 else none
  | c :: t, needle =>
    if needle.isPrefixOf (c :: t) then some 0
    else (findSub t needle).map (· + 1)

/-- One pass of `re.compile(re.escape(token), re.IGNORECASE).sub(...)`:
scan left to right, wrap every non-overlapping case-insensitive occurrence
of `tok` in `<mark>`/`</mark>`, keeping the original characters. The fuel
argument (always started at the text length, which the scan never
outruns) makes the recursion structural; the `!tok.isEmpty` guard is
required for that bound and never fires, since query tokens have at least
two characters. -/
def markSubGo (tok : List Char) : Nat → List Char → List Char
  | 0, s => s
  | _ + 1, [] => []
  | fuel + 1, c :: cs =>
    if !tok.isEmpty &&
        (tok.map Char.toLower).isPrefixOf ((c :: cs).map Char.toLower) then
      "<mark>".data ++ (c :: cs).take tok.length ++ "</mark>".data
        ++ markSubGo tok fuel ((c :: cs).drop tok.length)
    else c :: markSubGo tok fuel cs

/-- Case-insensitive replace-all of one token, on strings. -/
def markSub (tok s : String) : String :=
  String.mk (markSubGo tok.data s.data.length s.data)

/-- `SearchIndex._highlight_text`: wrap every occurrence of every query
token (re-tokenized from the original query) in `<mark>` tags, one
substitution pass per token. -/
def highlight_text (text query : String) : String :=
  (tokenize query).foldl (fun res tok => markSub tok res) text

/-- `SearchIndex._extract_context`: find the token in the lowercased text;
absent, return the first `context_chars` characters; otherwise return the
slice from `max(0, pos - context_chars // 2)` to
`min(len(text), pos + len(token) + context_chars // 2)` of the original
text, with `'...'` prepended when the slice does not start at 0 and
appended when it does not reach the end. The call site passes the default
`context_chars = 100`. -/
def extract_context (text token : String) (context_chars : Nat) : String :=
  match findSub (lowerStr text).data token.data with
  | none => String.mk (text.data.take context_chars)
  | some pos =>
    let start := pos - context_chars / 2
    let stop := min text.length (pos + token.length + context_chars / 2)
    let snippet := String.mk ((text.data.drop start).take (stop - start))
    let snippet := if 0 < start then "..." ++ snippet else snippet
    if stop < text.length then snippet ++ "..." else snippet

/-- `SearchIndex._generate_snippet`: per-field snippet source — the title
itself, the first tag containing the token, the highlight's stored text
truncated to 200 characters, a context window of the abstract, the first
author name containing the token — each passed through `highlight_text`;
every fall-through returns the empty string. -/
def generate_snippet (paper : Paper) (mi : MatchInfo) (query : String) : String :=
  if mi.field = "title" then highlight_text paper.title query
  else if mi.field = "tag" then
    match paper.tags.find? (fun tag => infixOf mi.token.data (lowerStr tag).data) with
    | some tag => highlight_text tag query
    | none => ""
  else if mi.field = "highlight" then
    highlight_text (String.mk (((mi.payload.map (·.2)).getD "").data.take 200)) query
  else if mi.field = "abstract" then
    highlight_text (extract_context (paper.abstract.getD "") mi.token 100) query
  else if mi.field = "author" then
    match paper.authors.find? (fun a => infixOf mi.token.data (lowerStr a.name).data) with
    | some a => highlight_text a.name query
    | none => ""
  else ""

/-- The `SearchMatch` built at lines 117–121 of the source for one match
record, named for reuse in statements: field, generated snippet, and
`match_info.get('page')`. -/
def mkSearchMatch (paper : Paper) (query : String) (mi : MatchInfo) : SearchMatch :=
  ⟨mi.field, generate_snippet paper mi query, mi.payload.map (·.1)⟩

/-- The snippet loop of `search` for one result document: walk the match
records with a `seen_fields` set, skip already-seen non-highlight fields,
drop empty snippets, and mark a field seen only when its snippet was
emitted and the field is not `highlight`. -/
def buildMatchesAux (paper : Paper) (query : String) :
    List MatchInfo → List String → List SearchMatch
  | [], _ => []
  | mi :: rest, seen =>
    if seen.contains mi.field && mi.field ≠ "highlight" then
      buildMatchesAux paper query rest seen
    else
      let snippet := generate_snippet paper mi query
      if snippet = "" then buildMatchesAux paper query rest seen
      else
        ⟨mi.field, snippet, mi.payload.map (·.1)⟩ ::
          buildMatchesAux paper query rest
            (if mi.field ≠ "highlight" then seen ++ [mi.field] else seen)

/-- The snippet loop started with the empty `seen_fields` set. -/
def buildMatches (paper : Paper) (query : String) (records : List MatchInfo) :
    List SearchMatch :=
  buildMatchesAux paper query records []

/-- The result loop of `search`: for each surviving `(paper_id, score)`
pair, skip the document if the cache lookup fails, otherwise emit a
`SearchResult` from the cached paper, the score, and the document's match
records (`matches_by_paper[paper_id]`, whose default is the empty list). -/
def buildResults (idx : SearchIndex) (mbp : List (String × List MatchInfo))
    (query : String) : List (String × Nat) → List SearchResult
  | [] => []
  | (pid, score) :: rest =>
    match alGet idx.papers pid with
    | none => buildResults idx mbp query rest
    | some paper =>
      ⟨paper.id, paper.title, score,
        buildMatchesAux paper query (alGetD mbp pid []) []⟩ ::
        buildResults idx mbp query rest

/-- `SearchIndex.search`: tokenize the query (empty token list returns
immediately), accumulate scores and match records, stable-sort by score
descending, truncate to `limit`, and build the result objects. -/
def search (idx : SearchIndex) (query : String) (limit : Nat) : List SearchResult :=
  let tokens := tokenize query
  if tokens = [] then []
  else
    let sm := collect idx.index tokens
    buildResults idx sm.2 query ((sortDesc sm.1).take limit)

/-- `search` at its declared default `limit = 50`. -/
def searchDefault (idx : SearchIndex) (query : String) : List SearchResult :=
  search idx query 50

/-- State-threaded rendering of `search`, for the frame property: the
index object is threaded through the accumulation loop exactly where the
source reads `self.index.get(token, [])`, and the final state is returned
next to the results. -/
def collectS (idx : SearchIndex) (tokens : List String) :
    SearchIndex × (List (String × Nat) × List (String × List MatchInfo)) :=
  tokens.foldl
    (fun st tok =>
      (st.1, (alGetD st.1.index tok []).foldl (fun s e => collectEntry s tok e) st.2))
    (idx, ([], []))

/-- State-threaded `search`: identical control flow, returning the index
state alongside the results. -/
def searchS (idx : SearchIndex) (query : String) (limit : Nat) :
    List SearchResult × SearchIndex :=
  let tokens := tokenize query
  if tokens = [] then ([], idx)
  else
    let st := collectS idx tokens
    (buildResults st.1 st.2.2 query ((sortDesc st.2.1).take limit), st.1)

/-- The `match_info` dict built for one posting (the record stored in
`matches_by_paper`), named for reuse in statements; `collectEntry` stores
exactly this record. -/
def mkMatchInfo (tok : String) (e : Posting) : MatchInfo :=
  ⟨e.field, tok, if e.field = "highlight" then e.payload else none⟩

/-- The flattened sequence of `(token, posting)` pairs the accumulation
loops of `search` process, in processing order: every query token
(duplicates included), paired with every posting under it. -/
def queryEntries (ix : List (String × List Posting)) (tokens : List String) :
    List (String × Posting) :=
  tokens.flatMap (fun tok => (alGetD ix tok []).map (fun e => (tok, e)))

/-- The apostrophe character, as a string. -/
def apostrophe : String := String.mk [Char.ofNat 39]

/-- The tokenizer example input of the specification. -/
def exampleInput : String := "The Quick-Brown Fox" ++ apostrophe ++ "s Nature2024!"

/-- A concrete paper exercising every indexed field, used by witnesses. -/
def samplePaper : Paper :=
  ⟨"p1", "Deep Learning Genomics", [⟨"Ada Lovelace"⟩],
   some "gradient methods help a lot", ["machine-learning"],
   [⟨2, "gradient descent", some "key idea"⟩]⟩

/-- A concrete one-paper store, used by witnesses. -/
def sampleStore : Store :=
  ⟨["p1"], fun pid => if pid = "p1" then some samplePaper else none⟩

/-- The index holding exactly `samplePaper`, used by witnesses. -/
def sampleIndex : SearchIndex := add_paper emptyIndex samplePaper

/-- The result `search sampleIndex "gradient" 50` returns, used by
witnesses. -/
def sampleResult : SearchResult :=
  ⟨"p1", "Deep Learning Genomics", 10,
   [⟨"highlight", "<mark>gradient</mark> descent", some 2⟩,
    ⟨"abstract", "<mark>gradient</mark> methods help a lot", none⟩]⟩

/-- A 62-character text whose only occurrence of `"zq"` sits at index 60,
used by the context-window witness. -/
def sampleAbstract : String := String.mk (List.replicate 60 'a') ++ "zq"

/-! ### Tokenizer -/

theorem wordRunsAux_eq (l : List Char) : ∀ acc : List Char,
    wordRunsAux l acc =
      if acc.isEmpty then specRuns l
      else (acc.reverse ++ l.takeWhile isWordChar) :: specRuns (l.dropWhile isWordChar) := by
  induction l with
  | nil =>
    intro acc
    cases acc <;> simp [wordRunsAux, specRuns]
  | cons c cs ih =>
    intro acc
    by_cases hc : isWordChar c = true
    · rw [wordRunsAux, if_pos hc, ih (c :: acc), specRuns, if_pos hc,
        List.takeWhile_cons, List.dropWhile_cons]
      simp only [hc, if_true, List.isEmpty_cons]
      cases acc with
      | nil => simp [ih []]
      | cons a as => simp
    · rw [wordRunsAux, if_neg hc, specRuns, if_neg hc,
        List.takeWhile_cons, List.dropWhile_cons]
      simp only [hc, if_false, Bool.false_eq_true]
      cases acc with
      | nil => simp [ih []]
      | cons a as =>
        simp only [List.isEmpty_cons, if_neg]
        rw [ih [], specRuns, if_neg hc]
        simp

theorem wordRuns_eq_specRuns (l : List Char) : wordRuns l = specRuns l := by
  rw [wordRuns, wordRunsAux_eq]
  simp

theorem tokenize_eq_specTokenize (text : String) : tokenize text = specTokenize text := by
  by_cases h : text = ""
  · rw [h]
    have h2 : (lowerStr "").data = [] := by decide
    rw [specTokenize, h2]
    simp [specRuns, tokenize]
  · rw [tokenize, if_neg h, specTokenize, wordRuns_eq_specRuns]
    simp only [show ∀ n : Nat, (1 < n) = (2 ≤ n) from fun n => propext (by omega)]

/-- C3: `tokenize` returns the empty sequence on empty or absent input,
agrees on every input with the spec-level tokenizer (lowercased maximal
`\w+` runs in order of first character, duplicates retained, stopwords and
words shorter than two characters removed), and yields
`["quick", "brown", "fox", "nature2024"]` on the specification's example
input; being a Lean function of its argument it is pure and
deterministic. -/
theorem C3_tokenize_behavior :
    tokenize "" = [] ∧ tokenizeOpt none = [] ∧
    (∀ text, tokenize text = specTokenize text) ∧
    tokenize exampleInput = ["quick", "brown", "fox", "nature2024"] :=
  ⟨by decide, rfl, tokenize_eq_specTokenize, by decide⟩

/-! ### Dictionary model -/

@[simp] theorem alGetD_nil {α : Type} (k : String) (d : α) : alGetD [] k d = d := rfl

theorem alGet_alSet {α : Type} (l : List (String × α)) (k k' : String) (v : α) :
    alGet (alSet l k v) k' = if k' = k then some v else alGet l k' := by
  induction l with
  | nil => by_cases h : k' = k <;> simp [alSet, alGet, h]
  | cons e rest ih =>
    obtain ⟨k0, v0⟩ := e
    by_cases hk : k = k0
    · subst hk
      by_cases h' : k' = k <;> simp [alSet, alGet, h']
    · by_cases h' : k' = k0
      · subst h'
        have : ¬ (k' = k) := fun h => hk h.symm
        simp [alSet, alGet, hk, this]
      · simp [alSet, alGet, hk, h', ih]

theorem alSet_keys {α : Type} (l : List (String × α)) (k : String) (v : α) :
    (alSet l k v).map Prod.fst =
      if k ∈ l.map Prod.fst then l.map Prod.fst else l.map Prod.fst ++ [k] := by
  induction l with
  | nil => simp [alSet]
  | cons e rest ih =>
    obtain ⟨k0, v0⟩ := e
    by_cases hk : k = k0
    · subst hk
      simp [alSet]
    · have : ¬ (k = k0 ∨ k ∈ rest.map Prod.fst) ↔ ¬ (k ∈ rest.map Prod.fst) := by
        constructor
        · intro h hm
          exact h (Or.inr hm)
        · intro h hm
          rcases hm with h1 | h2
          · exact hk h1
          · exact h h2
      by_cases hm : k ∈ rest.map Prod.fst <;>
        simp [alSet, hk, ih, hm]

theorem alGetD_ddAppend {α : Type} (l : List (String × List α)) (k k' : String) (v : α) :
    alGetD (ddAppend l k v) k' [] =
      alGetD l k' [] ++ if k' = k then [v] else [] := by
  induction l with
  | nil => by_cases h : k' = k <;> simp [ddAppend, alGetD, alGet, h]
  | cons e rest ih =>
    obtain ⟨k0, vs⟩ := e
    by_cases hk : k = k0
    · subst hk
      by_cases h' : k' = k <;> simp [ddAppend, alGetD, alGet, h']
    · by_cases h' : k' = k0
      · subst h'
        have : ¬ (k' = k) := fun h => hk h.symm
        simp [ddAppend, alGetD, alGet, hk, this]
      · simp only [ddAppend, if_neg hk]
        simp only [alGetD, alGet, if_neg h']
        simpa [alGetD] using ih

theorem alGetD_bump (l : List (String × Nat)) (k k' : String) (w : Nat) :
    alGetD (bump l k w) k' 0 = alGetD l k' 0 + if k' = k then w else 0 := by
  induction l with
  | nil => by_cases h : k' = k <;> simp [bump, alGetD, alGet, h]
  | cons e rest ih =>
    obtain ⟨k0, v0⟩ := e
    by_cases hk : k = k0
    · subst hk
      by_cases h' : k' = k <;> simp [bump, alGetD, alGet, h']
    · by_cases h' : k' = k0
      · subst h'
        have : ¬ (k' = k) := fun h => hk h.symm
        simp [bump, alGetD, alGet, hk, this]
      · simp only [bump, if_neg hk]
        simp only [alGetD, alGet, if_neg h']
        simpa [alGetD] using ih

theorem bump_keys (l : List (String × Nat)) (k : String) (w : Nat) :
    (bump l k w).map Prod.fst =
      if k ∈ l.map Prod.fst then l.map Prod.fst else l.map Prod.fst ++ [k] := by
  induction l with
  | nil => simp [bump]
  | cons e rest ih =>
    obtain ⟨k0, v0⟩ := e
    by_cases hk : k = k0
    · subst hk
      simp [bump]
    · by_cases hm : k ∈ rest.map Prod.fst <;>
        simp [bump, hk, ih, hm]

theorem alGet_eq_of_mem {α : Type} {l : List (String × α)} {k : String} {v : α}
    (hnd : (l.map Prod.fst).Nodup) (hm : (k, v) ∈ l) : alGet l k = some v := by
  induction l with
  | nil => cases hm
  | cons e rest ih =>
    obtain ⟨k0, v0⟩ := e
    rcases List.mem_cons.mp hm with h | h
    · cases h
      simp [alGet]
    · have hk : ¬ (k = k0) := by
        intro hkk
        subst hkk
        exact (List.nodup_cons.mp hnd).1 (List.mem_map.mpr ⟨(k, v), h, rfl⟩)
      simp only [alGet, if_neg hk]
      exact ih (List.nodup_cons.mp hnd).2 h

/-! ### Postings appended by `add_paper` -/

theorem foldl_ddAppend_lookup {α : Type} (pairs : List (String × α))
    (ix : List (String × List α)) (k : String) :
    alGetD (pairs.foldl (fun ix e => ddAppend ix e.1 e.2) ix) k []
      = alGetD ix k [] ++ (pairs.filter (fun e => e.1 = k)).map Prod.snd := by
  induction pairs generalizing ix with
  | nil => simp
  | cons e rest ih =>
    obtain ⟨t, v⟩ := e
    rw [List.foldl_cons, ih, alGetD_ddAppend]
    by_cases h : t = k
    · subst h
      simp [List.filter_cons, List.append_assoc]
    · have h2 : ¬ (k = t) := fun hh => h hh.symm
      simp [List.filter_cons, h, h2]

theorem foldl_flatMap {α β γ : Type} (xs : List β) (h : β → List γ)
    (g : α → γ → α) (i : α) :
    (xs.flatMap h).foldl g i = xs.foldl (fun acc x => (h x).foldl g acc) i := by
  induction xs generalizing i with
  | nil => rfl
  | cons x rest ih => rw [List.flatMap_cons, List.foldl_append, List.foldl_cons, ih]

theorem tokenize_empty : tokenize "" = [] := by decide

theorem add_paper_index_eq (idx : SearchIndex) (p : Paper) :
    (add_paper idx p).index
      = (addedPostings p).foldl (fun ix e => ddAppend ix e.1 e.2) idx.index := by
  cases habs : p.abstract with
  | none =>
    simp only [add_paper, addedPostings, habs, tokenizeOpt, List.foldl_append,
      foldl_flatMap, List.foldl_map, List.foldl_nil]
  | some a =>
    by_cases ha : a = ""
    · subst ha
      simp only [add_paper, addedPostings, habs, tokenizeOpt, tokenize_empty,
        List.foldl_append, foldl_flatMap, List.foldl_map, List.foldl_nil,
        List.map_nil, if_true]
    · simp only [add_paper, addedPostings, habs, tokenizeOpt, if_neg ha,
        List.foldl_append, foldl_flatMap, List.foldl_map]

theorem add_paper_index_lookup (idx : SearchIndex) (p : Paper) (tok : String) :
    alGetD (add_paper idx p).index tok []
      = alGetD idx.index tok []
        ++ ((addedPostings p).filter (fun e => e.1 = tok)).map Prod.snd := by
  rw [add_paper_index_eq, foldl_ddAppend_lookup]

theorem add_paper_papers (idx : SearchIndex) (p : Paper) :
    (add_paper idx p).papers = alSet idx.papers p.id p := rfl

theorem mem_addedPostings_paperId (p : Paper) :
    ∀ te ∈ addedPostings p, te.2.paperId = p.id := by
  intro te hte
  simp only [addedPostings, List.mem_append, List.mem_flatMap, List.mem_map] at hte
  rcases hte with ((((h | h) | h) | h) | h)
  · obtain ⟨t, ht, heq⟩ := h
    subst heq
    rfl
  · obtain ⟨tag, htag, t, ht, heq⟩ := h
    subst heq
    rfl
  · obtain ⟨hl, hhl, t, ht, heq⟩ := h
    subst heq
    rfl
  · obtain ⟨t, ht, heq⟩ := h
    subst heq
    rfl
  · obtain ⟨a, ha, t, ht, heq⟩ := h
    subst heq
    rfl

theorem mem_addedPostings_shape (p : Paper) :
    ∀ te ∈ addedPostings p,
      te.2.paperId = p.id ∧
      (te.2.field ≠ "highlight" → te.2.payload = none) ∧
      (te.2.field = "highlight" →
        ∃ hl ∈ p.highlights, te.2.payload = some (hl.page, hl.text)) ∧
      (te.2.field, te.2.weight) ∈
        ([("title", 10), ("tag", 8), ("highlight", 6), ("abstract", 4), ("author", 7)] :
          List (String × Nat)) := by
  intro te hte
  simp only [addedPostings, List.mem_append, List.mem_flatMap, List.mem_map] at hte
  rcases hte with ((((h | h) | h) | h) | h)
  · obtain ⟨t, ht, heq⟩ := h
    subst heq
    refine ⟨rfl, fun _ => rfl, fun hh => absurd hh (by simp), by simp⟩
  · obtain ⟨tag, htag, t, ht, heq⟩ := h
    subst heq
    refine ⟨rfl, fun _ => rfl, fun hh => absurd hh (by simp), by simp⟩
  · obtain ⟨hl, hhl, t, ht, heq⟩ := h
    subst heq
    refine ⟨rfl, fun hne => absurd rfl hne, fun _ => ⟨hl, hhl, rfl⟩, by simp⟩
  · obtain ⟨t, ht, heq⟩ := h
    subst heq
    refine ⟨rfl, fun _ => rfl, fun hh => absurd hh (by simp), by simp⟩
  · obtain ⟨a, ha, t, ht, heq⟩ := h
    subst heq
    refine ⟨rfl, fun _ => rfl, fun hh => absurd hh (by simp), by simp⟩

/-- C4: `add(document)` appends, for each token occurrence of each field,
exactly one posting with the fixed field weights (title 10, tag 8 per tag
tokenized independently, highlight 6 per highlight's text-plus-comment,
author 7 per author name tokenized independently, abstract 4), and only
highlight postings carry the extra `(page, full highlight text)`
payload; the postings list of every term after `add` is its previous list
followed by precisely the new postings for that term. -/
theorem C4_add_paper_postings :
    (∀ (idx : SearchIndex) (p : Paper) (tok : String),
        alGetD (add_paper idx p).index tok []
          = alGetD idx.index tok []
            ++ ((addedPostings p).filter (fun e => e.1 = tok)).map Prod.snd) ∧
    ∀ (p : Paper) (te : String × Posting), te ∈ addedPostings p →
      te.2.paperId = p.id ∧
      (te.2.field ≠ "highlight" → te.2.payload = none) ∧
      (te.2.field = "highlight" →
        ∃ hl ∈ p.highlights, te.2.payload = some (hl.page, hl.text)) ∧
      (te.2.field, te.2.weight) ∈
        ([("title", 10), ("tag", 8), ("highlight", 6), ("abstract", 4), ("author", 7)] :
          List (String × Nat)) :=
  ⟨add_paper_index_lookup, fun p te h => mem_addedPostings_shape p te h⟩

theorem C4_witness :
    (⟨"p1", "highlight", 6, some (2, "gradient descent")⟩ : Posting).paperId
        = samplePaper.id ∧
    ∃ hl ∈ samplePaper.highlights,
      (⟨"p1", "highlight", 6, some (2, "gradient descent")⟩ : Posting).payload
        = some (hl.page, hl.text) := by
  have h := C4_add_paper_postings.2 samplePaper
    ("gradient", ⟨"p1", "highlight", 6, some (2, "gradient descent")⟩) (by decide)
  exact ⟨h.1, h.2.2.1 rfl⟩

/-- C5: calling `add` twice for the same document without an intervening
rebuild duplicates every posting (the postings of the first call are still
present and the second call appends them again), while the `papers` cache
entry is replaced wholesale, leaving exactly one entry for that id. -/
theorem C5_add_twice (idx : SearchIndex) (p : Paper)
    (hnd : (idx.papers.map Prod.fst).Nodup) :
    (∀ tok, alGetD (add_paper (add_paper idx p) p).index tok []
        = alGetD idx.index tok []
          ++ ((addedPostings p).filter (fun e => e.1 = tok)).map Prod.snd
          ++ ((addedPostings p).filter (fun e => e.1 = tok)).map Prod.snd) ∧
    alGet (add_paper (add_paper idx p) p).papers p.id = some p ∧
    ((add_paper (add_paper idx p) p).papers.map Prod.fst).count p.id = 1 := by
  have hK1 : ((alSet idx.papers p.id p).map Prod.fst)
      = if p.id ∈ idx.papers.map Prod.fst then idx.papers.map Prod.fst
        else idx.papers.map Prod.fst ++ [p.id] := alSet_keys idx.papers p.id p
  have hmem1 : p.id ∈ (alSet idx.papers p.id p).map Prod.fst := by
    rw [hK1]
    split
    · assumption
    · simp
  have hnd1 : ((alSet idx.papers p.id p).map Prod.fst).Nodup := by
    rw [hK1]
    split
    · exact hnd
    · rw [List.nodup_append]
      refine ⟨hnd, List.nodup_singleton _, ?_⟩
      intro a ha hb
      rcases List.mem_singleton.mp hb with rfl
      exact (by assumption : ¬ p.id ∈ idx.papers.map Prod.fst) ha
  refine ⟨?_, ?_, ?_⟩
  · intro tok
    rw [add_paper_index_lookup, add_paper_index_lookup, List.append_assoc]
  · rw [add_paper_papers, alGet_alSet]
    simp
  · rw [add_paper_papers, add_paper_papers, alSet_keys, if_pos hmem1]
    exact List.count_eq_one_of_mem hnd1 hmem1

theorem C5_witness :
    (alGetD (add_paper (add_paper emptyIndex samplePaper) samplePaper).index "deep" []
        = alGetD emptyIndex.index "deep" []
          ++ ((addedPostings samplePaper).filter (fun e => e.1 = "deep")).map Prod.snd
          ++ ((addedPostings samplePaper).filter (fun e => e.1 = "deep")).map Prod.snd) ∧
    alGet (add_paper (add_paper emptyIndex samplePaper) samplePaper).papers
        samplePaper.id = some samplePaper ∧
    ((add_paper (add_paper emptyIndex samplePaper) samplePaper).papers.map
        Prod.fst).count samplePaper.id = 1 := by
  have h := C5_add_twice emptyIndex samplePaper (by decide)
  exact ⟨h.1 "deep", h.2.1, h.2.2⟩

/-! ### Rebuild -/

theorem rebuild_eq_replay (store : Store) : rebuild store = replayIndex store := by
  rw [rebuild, replayIndex]
  have aux : ∀ (l : List String) (ix : SearchIndex),
      l.foldl (fun ix pid =>
          match store.load pid with
          | some p => add_paper ix p
          | none => ix) ix
        = (l.filterMap store.load).foldl add_paper ix := by
    intro l
    induction l with
    | nil => intro ix; rfl
    | cons pid rest ih =>
      intro ix
      rw [List.foldl_cons, List.filterMap_cons]
      cases h : store.load pid with
      | none =>
        simp only [h]
        exact ih ix
      | some p =>
        simp only [h]
        rw [List.foldl_cons]
        exact ih (add_paper ix p)
  exact aux store.listing emptyIndex

theorem add_paper_inv (ix : SearchIndex) (p : Paper)
    (h : ∀ tok e, e ∈ alGetD ix.index tok [] →
      ∃ q, alGet ix.papers e.paperId = some q) :
    ∀ tok e, e ∈ alGetD (add_paper ix p).index tok [] →
      ∃ q, alGet (add_paper ix p).papers e.paperId = some q := by
  intro tok e he
  rw [add_paper_index_lookup] at he
  rw [add_paper_papers]
  rcases List.mem_append.mp he with hold | hnew
  · obtain ⟨q, hq⟩ := h tok e hold
    rw [alGet_alSet]
    by_cases hid : e.paperId = p.id
    · exact ⟨p, by rw [if_pos hid]⟩
    · exact ⟨q, by rw [if_neg hid]; exact hq⟩
  · obtain ⟨te, hte, hsnd⟩ := List.mem_map.mp hnew
    have hpid : e.paperId = p.id := by
      rw [← hsnd]
      exact mem_addedPostings_paperId p te (List.mem_filter.mp hte).1
    rw [alGet_alSet, if_pos hpid]
    exact ⟨p, rfl⟩

theorem rebuild_inv (store : Store) :
    ∀ tok e, e ∈ alGetD (rebuild store).index tok [] →
      ∃ q, alGet (rebuild store).papers e.paperId = some q := by
  rw [rebuild_eq_replay, replayIndex]
  have aux : ∀ (ps : List Paper) (ix : SearchIndex),
      (∀ tok e, e ∈ alGetD ix.index tok [] →
        ∃ q, alGet ix.papers e.paperId = some q) →
      ∀ tok e, e ∈ alGetD (ps.foldl add_paper ix).index tok [] →
        ∃ q, alGet (ps.foldl add_paper ix).papers e.paperId = some q := by
    intro ps
    induction ps with
    | nil => intro ix h; exact h
    | cons p rest ih => intro ix h; exact ih _ (add_paper_inv ix p h)
  refine aux _ emptyIndex ?_
  intro tok e he
  simp [emptyIndex, alGetD, alGet] at he

/-- C2: after `rebuild()` the index state equals the replay, from an empty
index, of `add(document)` over exactly the documents the store's
list-then-load two-step successfully returns, in listing order; and no
posting of the rebuilt index refers to a document id absent from the
`papers` cache. -/
theorem C2_rebuild_replay (store : Store) :
    rebuild store = replayIndex store ∧
    ∀ tok e, e ∈ alGetD (rebuild store).index tok [] →
      ∃ q, alGet (rebuild store).papers e.paperId = some q :=
  ⟨rebuild_eq_replay store, rebuild_inv store⟩

theorem C2_witness :
    ∃ q, alGet (rebuild sampleStore).papers
      (⟨"p1", "title", 10, none⟩ : Posting).paperId = some q :=
  (C2_rebuild_replay sampleStore).2 "deep" ⟨"p1", "title", 10, none⟩ (by decide)

/-! ### Score and match-record accumulation -/

theorem collect_eq_pairs (ix : List (String × List Posting)) (tokens : List String) :
    collect ix tokens
      = (queryEntries ix tokens).foldl (fun st te => collectEntry st te.1 te.2) ([], []) := by
  rw [collect, queryEntries]
  have aux : ∀ (ts : List String) (st : List (String × Nat) × List (String × List MatchInfo)),
      ts.foldl (fun st tok =>
          (alGetD ix tok []).foldl (fun st e => collectEntry st tok e) st) st
        = (ts.flatMap (fun tok => (alGetD ix tok []).map (fun e => (tok, e)))).foldl
            (fun st te => collectEntry st te.1 te.2) st := by
    intro ts
    induction ts with
    | nil => intro st; rfl
    | cons t rest ih =>
      intro st
      rw [List.foldl_cons, List.flatMap_cons, List.foldl_append, List.foldl_map, ih]
  exact aux tokens ([], [])

theorem scores_foldl_lookup (pairs : List (String × Posting))
    (st : List (String × Nat) × List (String × List MatchInfo)) (pid : String) :
    alGetD ((pairs.foldl (fun st te => collectEntry st te.1 te.2) st).1) pid 0
      = alGetD st.1 pid 0
        + (((pairs.map Prod.snd).filter (fun e => e.paperId = pid)).map
            Posting.weight).sum := by
  induction pairs generalizing st with
  | nil => simp
  | cons te rest ih =>
    rw [List.foldl_cons, ih,
      show (collectEntry st te.1 te.2).1 = bump st.1 te.2.paperId te.2.weight from rfl,
      alGetD_bump]
    by_cases h : te.2.paperId = pid
    · have h2 : pid = te.2.paperId := h.symm
      rw [if_pos h2]
      simp only [List.map_cons, List.filter_cons, decide_eq_true_eq, if_pos h,
        List.map_cons, List.sum_cons]
      omega
    · have h2 : ¬ pid = te.2.paperId := fun hh => h hh.symm
      rw [if_neg h2]
      simp only [List.map_cons, List.filter_cons, decide_eq_true_eq, if_neg h]
      omega

theorem mbp_foldl_lookup (pairs : List (String × Posting))
    (st : List (String × Nat) × List (String × List MatchInfo)) (pid : String) :
    alGetD ((pairs.foldl (fun st te => collectEntry st te.1 te.2) st).2) pid []
      = alGetD st.2 pid []
        ++ (pairs.filter (fun te => te.2.paperId = pid)).map
            (fun te => mkMatchInfo te.1 te.2) := by
  induction pairs generalizing st with
  | nil => simp
  | cons te rest ih =>
    rw [List.foldl_cons, ih,
      show (collectEntry st te.1 te.2).2
        = ddAppend st.2 te.2.paperId (mkMatchInfo te.1 te.2) from rfl,
      alGetD_ddAppend]
    by_cases h : te.2.paperId = pid
    · have h2 : pid = te.2.paperId := h.symm
      rw [if_pos h2]
      simp only [List.filter_cons, decide_eq_true_eq, if_pos h, List.map_cons]
      simp [List.append_assoc]
    · have h2 : ¬ pid = te.2.paperId := fun hh => h hh.symm
      rw [if_neg h2]
      simp only [List.filter_cons, decide_eq_true_eq, if_neg h, List.append_nil]

theorem nodup_append_singleton {l : List String} {k : String}
    (h : l.Nodup) (hk : ¬ k ∈ l) : (l ++ [k]).Nodup := by
  rw [List.nodup_append]
  refine ⟨h, List.nodup_singleton _, ?_⟩
  intro a ha hb
  rcases List.mem_singleton.mp hb with rfl
  exact hk ha

theorem scores_foldl_keys_nodup (pairs : List (String × Posting))
    (st : List (String × Nat) × List (String × List MatchInfo))
    (h : (st.1.map Prod.fst).Nodup) :
    (((pairs.foldl (fun st te => collectEntry st te.1 te.2) st).1).map Prod.fst).Nodup := by
  induction pairs generalizing st with
  | nil => exact h
  | cons te rest ih =>
    rw [List.foldl_cons]
    apply ih
    rw [show (collectEntry st te.1 te.2).1 = bump st.1 te.2.paperId te.2.weight from rfl,
      bump_keys]
    by_cases hm : te.2.paperId ∈ st.1.map Prod.fst
    · rw [if_pos hm]
      exact h
    · rw [if_neg hm]
      exact nodup_append_singleton h hm

theorem mem_of_alGet {α : Type} {l : List (String × α)} {k : String} {v : α}
    (h : alGet l k = some v) : (k, v) ∈ l := by
  induction l with
  | nil => cases h
  | cons e rest ih =>
    obtain ⟨k0, v0⟩ := e
    by_cases hk : k = k0
    · rw [alGet, if_pos hk] at h
      cases h
      rw [hk]
      exact List.mem_cons_self _ _
    · rw [alGet, if_neg hk] at h
      exact List.mem_cons_of_mem _ (ih h)

/-! ### Stable descending sort -/

theorem insertDesc_perm (x : String × Nat) (l : List (String × Nat)) :
    (insertDesc x l).Perm (x :: l) := by
  induction l with
  | nil => exact List.Perm.refl _
  | cons y ys ih =>
    by_cases hc : y.2 ≤ x.2
    · rw [insertDesc, if_pos hc]
    · rw [insertDesc, if_neg hc]
      exact (ih.cons y).trans (List.Perm.swap x y ys)

theorem sortDesc_perm (l : List (String × Nat)) : (sortDesc l).Perm l := by
  induction l with
  | nil => exact List.Perm.refl _
  | cons x xs ih => exact (insertDesc_perm x (sortDesc xs)).trans (ih.cons x)

theorem insertDesc_sorted (x : String × Nat) (l : List (String × Nat))
    (h : l.Pairwise (fun a b : String × Nat => b.2 ≤ a.2)) :
    (insertDesc x l).Pairwise (fun a b : String × Nat => b.2 ≤ a.2) := by
  induction l with
  | nil => simp [insertDesc]
  | cons y ys ih =>
    rcases List.pairwise_cons.mp h with ⟨hy, hys⟩
    by_cases hc : y.2 ≤ x.2
    · rw [insertDesc, if_pos hc]
      refine List.pairwise_cons.mpr ⟨?_, h⟩
      intro z hz
      rcases List.mem_cons.mp hz with rfl | hz'
      · exact hc
      · exact le_trans (hy z hz') hc
    · rw [insertDesc, if_neg hc]
      refine List.pairwise_cons.mpr ⟨?_, ih hys⟩
      intro z hz
      rcases List.mem_cons.mp ((insertDesc_perm x ys).mem_iff.mp hz) with rfl | hz'
      · exact le_of_lt (lt_of_not_le hc)
      · exact hy z hz'

theorem sortDesc_sorted (l : List (String × Nat)) :
    (sortDesc l).Pairwise (fun a b : String × Nat => b.2 ≤ a.2) := by
  induction l with
  | nil => simp [sortDesc]
  | cons x xs ih => exact insertDesc_sorted x (sortDesc xs) ih

theorem filter_insertDesc (x : String × Nat) (l : List (String × Nat)) (s : Nat) :
    (insertDesc x l).filter (fun e => e.2 = s)
      = if x.2 = s then x :: l.filter (fun e => e.2 = s)
        else l.filter (fun e => e.2 = s) := by
  induction l with
  | nil => by_cases h : x.2 = s <;> simp [insertDesc, List.filter_cons, h]
  | cons y ys ih =>
    by_cases hc : y.2 ≤ x.2
    · rw [insertDesc, if_pos hc]
      by_cases h : x.2 = s <;> simp [List.filter_cons, h]
    · rw [insertDesc, if_neg hc]
      by_cases hy : y.2 = s
      · have hx : ¬ x.2 = s := by
          intro hh
          exact hc (by omega)
        simp [List.filter_cons, hy, ih, hx]
      · simp [List.filter_cons, hy, ih]

theorem sortDesc_filter_score (l : List (String × Nat)) (s : Nat) :
    (sortDesc l).filter (fun e => e.2 = s) = l.filter (fun e => e.2 = s) := by
  induction l with
  | nil => rfl
  | cons x xs ih =>
    rw [sortDesc, filter_insertDesc]
    by_cases h : x.2 = s <;> simp [List.filter_cons, h, ih]

/-! ### Result construction -/

theorem mem_buildResults {idx : SearchIndex} {mbp : List (String × List MatchInfo)}
    {query : String} {l : List (String × Nat)} {r : SearchResult}
    (h : r ∈ buildResults idx mbp query l) :
    ∃ pid score paper, (pid, score) ∈ l ∧ alGet idx.papers pid = some paper ∧
      r = ⟨paper.id, paper.title, score,
            buildMatchesAux paper query (alGetD mbp pid []) []⟩ := by
  induction l with
  | nil => simp [buildResults] at h
  | cons e rest ih =>
    obtain ⟨pid, score⟩ := e
    rw [buildResults] at h
    cases halg : alGet idx.papers pid with
    | none =>
      rw [halg] at h
      obtain ⟨pid', score', paper, hm, ha, hr⟩ := ih h
      exact ⟨pid', score', paper, List.mem_cons_of_mem _ hm, ha, hr⟩
    | some paper =>
      rw [halg] at h
      rcases List.mem_cons.mp h with hr | h'
      · exact ⟨pid, score, paper, List.mem_cons_self _ _, halg, hr⟩
      · obtain ⟨pid', score', paper', hm, ha, hr⟩ := ih h'
        exact ⟨pid', score', paper', List.mem_cons_of_mem _ hm, ha, hr⟩

theorem buildResults_length_le (idx : SearchIndex) (mbp : List (String × List MatchInfo))
    (query : String) (l : List (String × Nat)) :
    (buildResults idx mbp query l).length ≤ l.length := by
  induction l with
  | nil => simp [buildResults]
  | cons e rest ih =>
    obtain ⟨pid, score⟩ := e
    rw [buildResults]
    cases halg : alGet idx.papers pid with
    | none =>
      simp only [List.length_cons]
      omega
    | some paper =>
      simp only [List.length_cons]
      omega

theorem buildResults_scores_sublist (idx : SearchIndex)
    (mbp : List (String × List MatchInfo)) (query : String) (l : List (String × Nat)) :
    List.Sublist ((buildResults idx mbp query l).map SearchResult.score)
      (l.map Prod.snd) := by
  induction l with
  | nil => simp [buildResults]
  | cons e rest ih =>
    obtain ⟨pid, score⟩ := e
    rw [buildResults]
    cases halg : alGet idx.papers pid with
    | none =>
      simp only [List.map_cons]
      exact ih.cons _
    | some paper =>
      simp only [List.map_cons]
      exact ih.cons₂ _

theorem search_eq_buildResults (idx : SearchIndex) (q : String) (limit : Nat) :
    search idx q limit
      = buildResults idx (collect idx.index (tokenize q)).2 q
          ((sortDesc (collect idx.index (tokenize q)).1).take limit) := by
  by_cases h : tokenize q = []
  · have hc : collect idx.index []
        = (([], []) : List (String × Nat) × List (String × List MatchInfo)) := rfl
    simp [search, h, hc, sortDesc, buildResults, List.take_nil]
  · simp only [search, if_neg h]

/-- C9: a query whose tokenization yields no terms (empty, absent, or
stopword-or-short-token-only input) makes `search` return the empty result
list immediately, for every index state and limit. -/
theorem C9_empty_query (idx : SearchIndex) (q : String) (limit : Nat)
    (h : tokenize q = []) : search idx q limit = [] := by
  simp [search, h]

theorem C9_witness :
    tokenize "the and is" = [] ∧ search emptyIndex "the and is" 50 = [] :=
  ⟨by decide, C9_empty_query emptyIndex "the and is" 50 (by decide)⟩

theorem collectS_eq (idx : SearchIndex) (tokens : List String) :
    collectS idx tokens = (idx, collect idx.index tokens) := by
  rw [collectS, collect]
  have aux : ∀ (ts : List String)
      (sm : List (String × Nat) × List (String × List MatchInfo)),
      ts.foldl (fun st tok =>
          (st.1, (alGetD st.1.index tok []).foldl (fun s e => collectEntry s tok e) st.2))
        (idx, sm)
        = (idx, ts.foldl (fun st tok =>
            (alGetD idx.index tok []).foldl (fun st e => collectEntry st tok e) st) sm) := by
    intro ts
    induction ts with
    | nil => intro sm; rfl
    | cons t rest ih =>
      intro sm
      rw [List.foldl_cons, List.foldl_cons]
      exact ih _
  exact aux tokens ([], [])

/-- C10: `search` leaves the index state unchanged — the state-threaded
rendering of the method, which threads the index through every
`self.index.get(token, [])` access, returns the original state unchanged
together with the same results (the `.get` accesses never insert keys into
the `defaultdict`, and the cached document map is only read). -/
theorem C10_search_frame (idx : SearchIndex) (q : String) (limit : Nat) :
    (searchS idx q limit).2 = idx ∧ (searchS idx q limit).1 = search idx q limit := by
  by_cases h : tokenize q = []
  · simp [searchS, search, h]
  · simp [searchS, search, h, collectS_eq]

/-- C1: the score of every document returned by `search` is the sum, over
every token of the tokenized query (duplicates included) and every posting
stored under that token whose document id is that document, of the
posting's weight (the consistency hypothesis states that every cache entry
is keyed by its paper's id, which holds in every reachable state). -/
theorem C1_search_score_sum (idx : SearchIndex) (q : String) (limit : Nat)
    (r : SearchResult)
    (hcons : idx.papers.all (fun e => e.2.id = e.1) = true)
    (hr : r ∈ search idx q limit) :
    r.score = ((tokenize q).map (fun tok =>
        (((alGetD idx.index tok []).filter (fun e => e.paperId = r.paper_id)).map
          Posting.weight).sum)).sum := by
  rw [search_eq_buildResults] at hr
  obtain ⟨pid, score, paper, hmem, halg, hre⟩ := mem_buildResults hr
  simp only [List.all_eq_true, decide_eq_true_eq] at hcons
  have hrp : r.paper_id = pid := by
    rw [hre]
    exact hcons (pid, paper) (mem_of_alGet halg)
  have hscore : r.score = score := by rw [hre]
  have hmem4 : (pid, score) ∈ (collect idx.index (tokenize q)).1 :=
    (sortDesc_perm _).mem_iff.mp ((List.take_sublist _ _).subset hmem)
  have hnd : (((collect idx.index (tokenize q)).1).map Prod.fst).Nodup := by
    rw [collect_eq_pairs]
    exact scores_foldl_keys_nodup _ _ (by simp)
  have hlook : alGetD (collect idx.index (tokenize q)).1 pid 0 = score := by
    rw [alGetD, alGet_eq_of_mem hnd hmem4]
    rfl
  have hval : alGetD (collect idx.index (tokenize q)).1 pid 0
      = ((((queryEntries idx.index (tokenize q)).map Prod.snd).filter
          (fun e => e.paperId = pid)).map Posting.weight).sum := by
    rw [collect_eq_pairs]
    simpa using scores_foldl_lookup (queryEntries idx.index (tokenize q)) ([], []) pid
  have hflat : (queryEntries idx.index (tokenize q)).map Prod.snd
      = (tokenize q).flatMap (fun tok => alGetD idx.index tok []) := by
    simp [queryEntries, List.map_flatMap, List.map_map, Function.comp_def]
  have hnest : ∀ (toks : List String),
      (((toks.flatMap (fun tok => alGetD idx.index tok [])).filter
          (fun e => e.paperId = pid)).map Posting.weight).sum
        = (toks.map (fun tok =>
            (((alGetD idx.index tok []).filter (fun e => e.paperId = pid)).map
              Posting.weight).sum)).sum := by
    intro toks
    induction toks with
    | nil => simp
    | cons t rest ih =>
      simp [List.flatMap_cons, List.filter_append, List.map_append, List.sum_append, ih]
  rw [hscore, hrp, ← hlook, hval, hflat, hnest]

theorem C1_witness :
    sampleResult.score
      = ((tokenize "gradient").map (fun tok =>
          (((alGetD sampleIndex.index tok []).filter
            (fun e => e.paperId = sampleResult.paper_id)).map Posting.weight).sum)).sum :=
  C1_search_score_sum sampleIndex "gradient" 50 sampleResult (by decide) (by decide)

/-- C6: the result list of `search` is the ranked construction over the
stable descending sort of the accumulated scores truncated to `limit`
(`limit` defaults to 50 in the source signature); consequently it holds at
most `limit` entries and is sorted by score descending, and the stable
sort keeps equal-scored documents in the discovery order of the score
accumulation. -/
theorem C6_search_ordering (idx : SearchIndex) (q : String) (limit : Nat) :
    search idx q limit
      = buildResults idx (collect idx.index (tokenize q)).2 q
          ((sortDesc (collect idx.index (tokenize q)).1).take limit) ∧
    (search idx q limit).length ≤ limit ∧
    (search idx q limit).Pairwise (fun a b => b.score ≤ a.score) ∧
    (∀ s : Nat, (sortDesc (collect idx.index (tokenize q)).1).filter (fun e => e.2 = s)
        = ((collect idx.index (tokenize q)).1).filter (fun e => e.2 = s)) ∧
    searchDefault idx q = search idx q 50 := by
  refine ⟨search_eq_buildResults idx q limit, ?_, ?_, fun s => sortDesc_filter_score _ s, rfl⟩
  · rw [search_eq_buildResults]
    calc (buildResults idx (collect idx.index (tokenize q)).2 q
          ((sortDesc (collect idx.index (tokenize q)).1).take limit)).length
        ≤ ((sortDesc (collect idx.index (tokenize q)).1).take limit).length :=
          buildResults_length_le _ _ _ _
      _ ≤ limit := List.length_take_le _ _
  · rw [search_eq_buildResults]
    have hsorted : (((sortDesc (collect idx.index (tokenize q)).1).take limit).map
        Prod.snd).Pairwise (fun a b : Nat => b ≤ a) :=
      List.pairwise_map.mpr
        ((sortDesc_sorted _).sublist (List.take_sublist _ _))
    have h3 := hsorted.sublist (buildResults_scores_sublist idx
      (collect idx.index (tokenize q)).2 q
      ((sortDesc (collect idx.index (tokenize q)).1).take limit))
    exact List.pairwise_map.mp h3

/-! ### Snippet deduplication -/

theorem buildMatchesAux_snippet_ne (paper : Paper) (query : String) :
    ∀ (mis : List MatchInfo) (seen : List String) (m : SearchMatch),
      m ∈ buildMatchesAux paper query mis seen → m.snippet ≠ "" := by
  intro mis
  induction mis with
  | nil =>
    intro seen m hm
    simp [buildMatchesAux] at hm
  | cons mi rest ih =>
    intro seen m hm
    simp only [buildMatchesAux] at hm
    split at hm
    · exact ih _ m hm
    · split at hm
      · exact ih _ m hm
      · next hsn =>
        rcases List.mem_cons.mp hm with rfl | hm'
        · exact hsn
        · exact ih _ m hm'

theorem buildMatchesAux_filter_seen (paper : Paper) (query : String) :
    ∀ (mis : List MatchInfo) (seen : List String) (f : String), f ∈ seen →
      f ≠ "highlight" →
      (buildMatchesAux paper query mis seen).filter (fun m => m.field = f) = [] := by
  intro mis
  induction mis with
  | nil =>
    intro seen f hf hne
    simp [buildMatchesAux]
  | cons mi rest ih =>
    intro seen f hf hne
    simp only [buildMatchesAux]
    split
    · exact ih seen f hf hne
    · next hskip =>
      split
      · exact ih seen f hf hne
      · next hsn =>
        rw [List.filter_cons]
        have hmf : ¬ (mi.field = f) := by
          intro hh
          apply hskip
          subst hh
          simp [hf, hne]
        rw [if_neg (by simpa using hmf)]
        by_cases hh : mi.field = "highlight"
        · rw [if_neg (by simpa using hh)]
          exact ih seen f hf hne
        · rw [if_pos (by simpa using hh)]
          exact ih _ f (List.mem_append_left _ hf) hne

theorem buildMatchesAux_filter_first (paper : Paper) (query : String) :
    ∀ (mis : List MatchInfo) (seen : List String) (f : String), ¬ f ∈ seen →
      f ≠ "highlight" →
      (buildMatchesAux paper query mis seen).filter (fun m => m.field = f)
        = ((mis.find? (fun mi =>
            decide (mi.field = f ∧ generate_snippet paper mi query ≠ ""))).map
            (mkSearchMatch paper query)).toList := by
  intro mis
  induction mis with
  | nil =>
    intro seen f hf hne
    simp [buildMatchesAux]
  | cons mi rest ih =>
    intro seen f hf hne
    simp only [buildMatchesAux]
    split
    · next hskip =>
      have hmf : ¬ (mi.field = f) := by
        intro hh
        rcases Bool.and_eq_true_iff.mp hskip with ⟨hc, _⟩
        rw [hh] at hc
        exact hf (by simpa using hc)
      rw [List.find?_cons_of_neg _ (by simp [hmf])]
      exact ih seen f hf hne
    · next hskip =>
      split
      · next hsn =>
        rw [List.find?_cons_of_neg _ (by simp [hsn])]
        exact ih seen f hf hne
      · next hsn =>
        rw [List.filter_cons]
        by_cases hmf : mi.field = f
        · rw [if_pos (by simpa using hmf)]
          rw [List.find?_cons_of_pos _ (by simp [hmf, hsn])]
          have hfh : ¬ (mi.field = "highlight") := by
            rw [hmf]
            exact hne
          rw [if_pos (by simpa using hfh)]
          have hrest := buildMatchesAux_filter_seen paper query rest
            (seen ++ [mi.field]) f (by simp [hmf]) hne
          rw [hrest]
          rfl
        · rw [if_neg (by simpa using hmf)]
          rw [List.find?_cons_of_neg _ (by simp [hmf])]
          by_cases hh : mi.field = "highlight"
          · rw [if_neg (by simpa using hh)]
            exact ih seen f hf hne
          · rw [if_pos (by simpa using hh)]
            refine ih _ f ?_ hne
            intro hmem
            rcases List.mem_append.mp hmem with h1 | h2
            · exact hf h1
            · exact hmf (List.mem_singleton.mp h2).symm

theorem buildMatchesAux_filter_highlight (paper : Paper) (query : String) :
    ∀ (mis : List MatchInfo) (seen : List String),
      (buildMatchesAux paper query mis seen).filter (fun m => m.field = "highlight")
        = (mis.filter (fun mi =>
            decide (mi.field = "highlight" ∧ generate_snippet paper mi query ≠ ""))).map
            (mkSearchMatch paper query) := by
  intro mis
  induction mis with
  | nil =>
    intro seen
    simp [buildMatchesAux]
  | cons mi rest ih =>
    intro seen
    simp only [buildMatchesAux]
    split
    · next hskip =>
      have hfh : ¬ (mi.field = "highlight") := by
        rcases Bool.and_eq_true_iff.mp hskip with ⟨_, hd⟩
        simpa using hd
      rw [List.filter_cons, if_neg (by simp [hfh])]
      exact ih seen
    · next hskip =>
      split
      · next hsn =>
        rw [List.filter_cons, if_neg (by simp [hsn])]
        exact ih seen
      · next hsn =>
        by_cases hh : mi.field = "highlight"
        · rw [if_neg (show ¬ (mi.field ≠ "highlight") by simp [hh])]
          simp only [List.filter_cons]
          rw [if_pos (by simp [hh]), if_pos (by simp [hh, hsn]), List.map_cons, ih seen]
          rfl
        · rw [if_pos (show mi.field ≠ "highlight" from hh)]
          simp only [List.filter_cons]
          rw [if_neg (by simp [hh]), if_neg (by simp [hh])]
          exact ih _

theorem mem_search_matches {idx : SearchIndex} {q : String} {limit : Nat}
    {r : SearchResult} (hr : r ∈ search idx q limit) :
    ∃ pid paper, alGet idx.papers pid = some paper ∧
      r.«matches» = buildMatches paper q
        (alGetD (collect idx.index (tokenize q)).2 pid []) := by
  rw [search_eq_buildResults] at hr
  obtain ⟨pid, score, paper, hmem, halg, hre⟩ := mem_buildResults hr
  exact ⟨pid, paper, halg, by rw [hre]; rfl⟩

/-- C7: in the snippet loop of every returned result, at most one
`SearchMatch` is produced per field other than `highlight` — namely the
one generated from the first match record of that field with a non-empty
snippet — while every matching highlight record with a non-empty snippet
contributes its own `SearchMatch`; match records whose snippet is empty
produce no entry at all. -/
theorem C7_snippet_dedup :
    (∀ (paper : Paper) (query : String) (records : List MatchInfo),
      (∀ m ∈ buildMatches paper query records, m.snippet ≠ "") ∧
      (∀ f, f ≠ "highlight" →
        (buildMatches paper query records).filter (fun m => m.field = f)
          = ((records.find? (fun mi =>
              decide (mi.field = f ∧ generate_snippet paper mi query ≠ ""))).map
              (mkSearchMatch paper query)).toList) ∧
      (buildMatches paper query records).filter (fun m => m.field = "highlight")
        = (records.filter (fun mi =>
            decide (mi.field = "highlight" ∧ generate_snippet paper mi query ≠ ""))).map
            (mkSearchMatch paper query)) ∧
    ∀ (idx : SearchIndex) (q : String) (limit : Nat) (r : SearchResult),
      r ∈ search idx q limit →
      ∃ pid paper, alGet idx.papers pid = some paper ∧
        r.«matches» = buildMatches paper q
          (alGetD (collect idx.index (tokenize q)).2 pid []) := by
  constructor
  · intro paper query records
    exact ⟨fun m hm => buildMatchesAux_snippet_ne paper query records [] m hm,
      fun f hne => buildMatchesAux_filter_first paper query records [] f (by simp) hne,
      buildMatchesAux_filter_highlight paper query records []⟩
  · intro idx q limit r hr
    exact mem_search_matches hr

theorem C7_witness :
    ((buildMatches samplePaper "deep" [⟨"title", "deep", none⟩]).filter
        (fun m => m.field = "title")
      = ((([⟨"title", "deep", none⟩] : List MatchInfo).find? (fun mi =>
          decide (mi.field = "title" ∧ generate_snippet samplePaper mi "deep" ≠ ""))).map
          (mkSearchMatch samplePaper "deep")).toList) ∧
    ∃ pid paper, alGet sampleIndex.papers pid = some paper ∧
      sampleResult.«matches» = buildMatches paper "gradient"
        (alGetD (collect sampleIndex.index (tokenize "gradient")).2 pid []) :=
  ⟨(C7_snippet_dedup.1 samplePaper "deep" [⟨"title", "deep", none⟩]).2.1 "title"
      (by decide),
   C7_snippet_dedup.2 sampleIndex "gradient" 50 sampleResult (by decide)⟩

/-! ### Abstract context window -/

/-- C8: when the (lowercased, hence case-insensitive) abstract contains
the matched term at first position `pos`, the context snippet is the slice
of the original text from `pos - 50` to
`min (length) (pos + term length + 50)` — the 100-character window around
the occurrence, truncated at the string's boundaries — prefixed with
`"..."` exactly when the window does not start at position 0 and suffixed
with `"..."` exactly when it does not reach the end of the text. -/
theorem C8_extract_context (text token : String) (pos : Nat)
    (hpos : findSub (lowerStr text).data token.data = some pos) :
    extract_context text token 100
      = (if 0 < pos - 50 then "..." else "")
        ++ String.mk ((text.data.drop (pos - 50)).take
            (min text.length (pos + token.length + 50) - (pos - 50)))
        ++ (if min text.length (pos + token.length + 50) < text.length
            then "..." else "") := by
  have he : ∀ s : String, "" ++ s = s := fun _ => rfl
  simp only [extract_context, hpos, show (100 : Nat) / 2 = 50 from rfl]
  by_cases h1 : 0 < pos - 50 <;>
    by_cases h2 : min text.length (pos + token.length + 50) < text.length <;>
      simp [h1, h2, he]

theorem C8_witness :
    findSub (lowerStr sampleAbstract).data "zq".data = some 60 ∧
    extract_context sampleAbstract "zq" 100
      = (if 0 < 60 - 50 then "..." else "")
        ++ String.mk ((sampleAbstract.data.drop (60 - 50)).take
            (min sampleAbstract.length (60 + "zq".length + 50) - (60 - 50)))
        ++ (if min sampleAbstract.length (60 + "zq".length + 50) < sampleAbstract.length
            then "..." else "") :=
  ⟨by decide, C8_extract_context sampleAbstract "zq" 60 (by decide)⟩

end Scholarita
